import Mathlib

/-!
Shallow embedding of the striped concurrent hash map (header
`ConcurrentHashmap<Key, Value, Hash>` together with its inner class
`NodeList`).

Modelling conventions:
* The chain `NodeList` (a singly linked list of `Node`s reached from
  `mHead` via `next` pointers) is embedded as a Lean `List` of nodes;
  the head of the Lean list is `mHead` and the list tail plays the role
  of the `next` pointers.
* The bucket array `mTable` (a raw array of `capacity` chains) is a
  `List` of chains; element access `mTable[i]` becomes `List.getD` and
  in-place mutation of one slot becomes `List.set`.
* `std::size_t` values are embedded as `Nat`; all arithmetic the code
  performs on them (`%`, `/`, `min`, `+ 1`, `- 1`) stays inside the
  range of `size_t` in every reachable state, so no `% 2 ^ 64` wrapping
  is needed.
* Exceptions become `Except` values; the enum codes of
  `ConcurrentHashmapException` become an inductive type.
* Mutexes have no sequential content; `getMutex`'s array subscript
  `mMutexes[mutexIndex]` is embedded as the computed index
  (`getMutexIndex`), about which the bounds and striping facts are
  stated.  `get`'s `LockedValue` (value paired with the transferred
  lock) is embedded as the value paired with the index of the lock that
  would be handed to the caller.
-/

/-- The enum of `ConcurrentHashmapException` error codes. -/
inductive ConcurrentHashmapException where
  | InvalidCapacity
  | InvalidConcurrencyLevel
  | KeyNotFound
deriving DecidableEq, Repr

/-- `Node`: an entry of a chain.  The `next` pointer of the C++ struct
is represented by the position of the node inside the Lean list that
embeds the chain. -/
structure Node (Key Value : Type) where
  key : Key
  value : Value
deriving DecidableEq, Repr

namespace NodeList

variable {Key Value : Type} [DecidableEq Key]

/-- `NodeList::find`: walk the chain from the head and return the first
node whose key equals `key`, or nothing (`nullptr`). -/
def find (key : Key) : List (Node Key Value) → Option (Node Key Value)
  | [] => none
  | n :: rest => if n.key = key then some n else find key rest

/-- In-place overwrite `node->value = value` of the first node whose key
equals `key` (the node `NodeList::find` returns), leaving the rest of
the chain untouched. -/
def setValueFirst (key : Key) (value : Value) :
    List (Node Key Value) → List (Node Key Value)
  | [] => []
  | n :: rest =>
    if n.key = key then { n with value := value } :: rest
    else n :: setValueFirst key value rest

/-- `NodeList::insert`: if `find` locates a node, overwrite its value
and report `false`; otherwise link a new node at the head and report
`true`. -/
def insert (key : Key) (value : Value) (l : List (Node Key Value)) :
    Bool × List (Node Key Value) :=
  match find key l with
  | some _ => (false, setValueFirst key value l)
  | none => (true, { key := key, value := value } :: l)

/-- `NodeList::erase`: delete the first node whose key equals `key` and
report `true`; report `false` when no node matches.  The head special
case and the `prev`/`node` loop of the C++ both unlink exactly the first
matching node. -/
def erase (key : Key) : List (Node Key Value) → Bool × List (Node Key Value)
  | [] => (false, [])
  | n :: rest =>
    if n.key = key then (true, rest)
    else
      let r := erase key rest
      (r.1, n :: r.2)

end NodeList

/-- The container state: the fields of `ConcurrentHashmap` that carry
sequential content (`mMutexes` itself holds no data beyond its length
`mMutexCount`). -/
structure ConcurrentHashmap (Key Value : Type) where
  mCapacity : Nat
  mMutexCount : Nat
  mIndicesPerMutex : Nat
  mHasher : Key → Nat
  mSize : Nat
  mTable : List (List (Node Key Value))

/-- `ConcurrencyLevelDefault = 16`. -/
def ConcurrencyLevelDefault : Nat := 16

namespace ConcurrentHashmap

variable {Key Value : Type} [DecidableEq Key]

/-- `ConcurrentHashmap::getMutexCount`: validates the configuration and
returns `std::min(concurrencyLevel, capacity)`; throwing becomes
returning `Except.error`. -/
def getMutexCount (capacity concurrencyLevel : Nat) :
    Except ConcurrentHashmapException Nat :=
  if capacity = 0 then .error .InvalidCapacity
  else if concurrencyLevel = 0 then .error .InvalidConcurrencyLevel
  else .ok (min concurrencyLevel capacity)

/-- `ConcurrentHashmap::getIndicesPerMutex`: the C truthiness test
`if (capacity % mutexCount)` becomes a test against zero. -/
def getIndicesPerMutex (capacity mutexCount : Nat) : Nat :=
  if capacity % mutexCount ≠ 0 then (capacity + mutexCount) / mutexCount
  else capacity / mutexCount

/-- The constructor `ConcurrentHashmap(capacity, concurrencyLevel,
hasher)`: member initializers in order, `mSize(0)`, `mTable` an array of
`capacity` default-constructed (empty) chains.  A throwing constructor
becomes a fallible factory returning `Except.error`, producing no
container. -/
def construct (capacity concurrencyLevel : Nat) (hasher : Key → Nat) :
    Except ConcurrentHashmapException (ConcurrentHashmap Key Value) :=
  match getMutexCount capacity concurrencyLevel with
  | .error e => .error e
  | .ok mutexCount =>
    .ok { mCapacity := capacity
          mMutexCount := mutexCount
          mIndicesPerMutex := getIndicesPerMutex capacity mutexCount
          mHasher := hasher
          mSize := 0
          mTable := List.replicate capacity [] }

/-- `ConcurrentHashmap::capacity`. -/
def capacity (m : ConcurrentHashmap Key Value) : Nat := m.mCapacity

/-- `ConcurrentHashmap::size`. -/
def size (m : ConcurrentHashmap Key Value) : Nat := m.mSize

/-- `ConcurrentHashmap::getIndex`: `mHasher(key) % mCapacity`. -/
def getIndex (m : ConcurrentHashmap Key Value) (key : Key) : Nat :=
  m.mHasher key % m.mCapacity

/-- The subscript `tableIndex / mIndicesPerMutex` computed by
`ConcurrentHashmap::getMutex` before indexing `mMutexes`. -/
def getMutexIndex (m : ConcurrentHashmap Key Value) (tableIndex : Nat) : Nat :=
  tableIndex / m.mIndicesPerMutex

/-- `ConcurrentHashmap::find`: `mTable[index].find(key) != nullptr`. -/
def find (m : ConcurrentHashmap Key Value) (key : Key) : Bool :=
  (NodeList.find key (m.mTable.getD (m.getIndex key) [])).isSome

/-- `ConcurrentHashmap::getCopy`: the found node's value, or a
`KeyNotFound` failure. -/
def getCopy (m : ConcurrentHashmap Key Value) (key : Key) :
    Except ConcurrentHashmapException Value :=
  match NodeList.find key (m.mTable.getD (m.getIndex key) []) with
  | some node => .ok node.value
  | none => .error .KeyNotFound

/-- `ConcurrentHashmap::get`: on success the `LockedValue` pair — the
stored value together with the index of the stripe lock transferred to
the caller; on failure `KeyNotFound` with no lock handed back. -/
def get (m : ConcurrentHashmap Key Value) (key : Key) :
    Except ConcurrentHashmapException (Value × Nat) :=
  match NodeList.find key (m.mTable.getD (m.getIndex key) []) with
  | some node => .ok (node.value, m.getMutexIndex (m.getIndex key))
  | none => .error .KeyNotFound

/-- `ConcurrentHashmap::insert`: delegate to the chain at the key's
bucket, and `++mSize` exactly when the chain reports a fresh
insertion. -/
def insert (m : ConcurrentHashmap Key Value) (key : Key) (value : Value) :
    ConcurrentHashmap Key Value :=
  let index := m.getIndex key
  let r := NodeList.insert key value (m.mTable.getD index [])
  { m with
    mTable := m.mTable.set index r.2
    mSize := if r.1 then m.mSize + 1 else m.mSize }

/-- `ConcurrentHashmap::erase`: delegate to the chain at the key's
bucket, and `--mSize` exactly when the chain reports a deletion. -/
def erase (m : ConcurrentHashmap Key Value) (key : Key) :
    ConcurrentHashmap Key Value :=
  let index := m.getIndex key
  let r := NodeList.erase key (m.mTable.getD index [])
  { m with
    mTable := m.mTable.set index r.2
    mSize := if r.1 then m.mSize - 1 else m.mSize }

/-- Structural well-formedness every container built by the constructor
has: the bucket array has exactly `mCapacity` slots and the capacity is
positive (the constructor rejects zero). -/
def TableWF (m : ConcurrentHashmap Key Value) : Prop :=
  m.mTable.length = m.mCapacity ∧ 0 < m.mCapacity

/-- The size counter agrees with the number of live entries across all
chains. -/
def SizeOk (m : ConcurrentHashmap Key Value) : Prop :=
  m.mSize = (m.mTable.map List.length).sum

/-- The chain invariant: every chain holds at most one entry per
distinct key value. -/
def KeysInv (m : ConcurrentHashmap Key Value) : Prop :=
  ∀ chain ∈ m.mTable, (chain.map Node.key).Nodup

instance (m : ConcurrentHashmap Key Value) : Decidable m.TableWF :=
  inferInstanceAs (Decidable (m.mTable.length = m.mCapacity ∧ 0 < m.mCapacity))

instance (m : ConcurrentHashmap Key Value) : Decidable m.SizeOk :=
  inferInstanceAs (Decidable (m.mSize = (m.mTable.map List.length).sum))

instance (m : ConcurrentHashmap Key Value) : Decidable m.KeysInv :=
  inferInstanceAs (Decidable (∀ chain ∈ m.mTable, (chain.map Node.key).Nodup))

end ConcurrentHashmap

/-! ### Ceiling-division arithmetic -/

theorem div_eq_pred_div_of_not_dvd {cap mc : Nat} (hmc : 0 < mc)
    (hnd : ¬ mc ∣ cap) : cap / mc = (cap - 1) / mc := by
  have hc : 0 < cap := by
    rcases Nat.eq_zero_or_pos cap with h0 | h0
    · exact absurd (h0 ▸ Nat.dvd_zero mc) hnd
    · exact h0
  have hs := Nat.succ_div (cap - 1) mc
  rw [Nat.sub_add_cancel hc] at hs
  rw [hs, if_neg hnd]
  omega

theorem div_eq_pred_div_succ_of_dvd {cap mc : Nat} (hc : 0 < cap)
    (hd : mc ∣ cap) : cap / mc = (cap - 1) / mc + 1 := by
  have hs := Nat.succ_div (cap - 1) mc
  rw [Nat.sub_add_cancel hc] at hs
  rw [hs, if_pos hd]

theorem add_sub_one_div {cap mc : Nat} (hc : 0 < cap) (hmc : 0 < mc) :
    (cap + mc - 1) / mc = (cap - 1) / mc + 1 := by
  have h : cap + mc - 1 = (cap - 1) + mc := by omega
  rw [h, Nat.add_div_right _ hmc]

theorem ceil_mul_ge (cap mc : Nat) (hmc : 0 < mc) :
    cap ≤ mc * ((cap + mc - 1) / mc) := by
  have hdm := Nat.div_add_mod (cap + mc - 1) mc
  have hlt : (cap + mc - 1) % mc < mc := Nat.mod_lt _ hmc
  omega

theorem ceil_pos (cap mc : Nat) (hc : 0 < cap) (hmc : 0 < mc) :
    0 < (cap + mc - 1) / mc :=
  Nat.div_pos (by omega) hmc

/-! ### List helper lemmas -/

theorem getD_set_self {α : Type} (c d : α) :
    ∀ (l : List α) (i : Nat), i < l.length → (l.set i c).getD i d = c := by
  intro l
  induction l with
  | nil => intro i h; simp at h
  | cons a t ih =>
    intro i h
    cases i with
    | zero => rfl
    | succ j => simpa using ih j (by simpa using h)

theorem getD_set_ne {α : Type} (c d : α) :
    ∀ (l : List α) (i j : Nat), i ≠ j → (l.set i c).getD j d = l.getD j d := by
  intro l
  induction l with
  | nil => intro i j _; rfl
  | cons a t ih =>
    intro i j hne
    cases i with
    | zero =>
      cases j with
      | zero => exact absurd rfl hne
      | succ j2 => rfl
    | succ i2 =>
      cases j with
      | zero => rfl
      | succ j2 => simpa using ih i2 j2 (by omega)

theorem set_getD_self {α : Type} (d : α) :
    ∀ (l : List α) (i : Nat), l.set i (l.getD i d) = l := by
  intro l
  induction l with
  | nil => intro i; rfl
  | cons a t ih =>
    intro i
    cases i with
    | zero => rfl
    | succ j => simpa using ih j

theorem getD_replicate {α : Type} (a : α) :
    ∀ (n i : Nat), (List.replicate n a).getD i a = a := by
  intro n
  induction n with
  | zero => intro i; rfl
  | succ m ih =>
    intro i
    cases i with
    | zero => rfl
    | succ j => simp [ih j]

theorem getD_mem {α : Type} (d : α) :
    ∀ (l : List α) (i : Nat), i < l.length → l.getD i d ∈ l := by
  intro l
  induction l with
  | nil => intro i h; simp at h
  | cons a t ih =>
    intro i h
    cases i with
    | zero => exact List.mem_cons_self a t
    | succ j =>
      exact List.mem_cons_of_mem a (by simpa using ih j (by simpa using h))

/-! ### Chain (`NodeList`) lemmas -/

namespace NodeList

variable {Key Value : Type} [DecidableEq Key]

theorem find_eq_none_iff (key : Key) :
    ∀ l : List (Node Key Value), find key l = none ↔ key ∉ l.map Node.key := by
  intro l
  induction l with
  | nil => simp [find]
  | cons n rest ih =>
    by_cases h : n.key = key
    · simp [find, h]
    · have hne2 : ¬ key = n.key := fun hx => h hx.symm
      simp [find, h, ih, hne2]

theorem find_key (key : Key) :
    ∀ (l : List (Node Key Value)) (n : Node Key Value),
      find key l = some n → n.key = key := by
  intro l
  induction l with
  | nil => intro n h; simp [find] at h
  | cons a rest ih =>
    intro n h
    by_cases ha : a.key = key
    · simp [find, ha] at h
      exact h ▸ ha
    · simp [find, ha] at h
      exact ih n h

theorem find_setValueFirst_self (key : Key) (v : Value) :
    ∀ l : List (Node Key Value),
      find key (setValueFirst key v l) =
        (find key l).map (fun n => { n with value := v }) := by
  intro l
  induction l with
  | nil => rfl
  | cons n rest ih =>
    by_cases h : n.key = key
    · simp [find, setValueFirst, h]
    · simp [find, setValueFirst, h, ih]

theorem find_setValueFirst_ne {key' key : Key} (hne : key' ≠ key) (v : Value) :
    ∀ l : List (Node Key Value),
      find key' (setValueFirst key v l) = find key' l := by
  intro l
  induction l with
  | nil => rfl
  | cons n rest ih =>
    have hkk : ¬ key = key' := fun hx => hne hx.symm
    by_cases h : n.key = key
    · have h' : ¬ n.key = key' := fun hx => hne (hx ▸ h)
      simp [find, setValueFirst, h, h', hkk]
    · by_cases h2 : n.key = key'
      · simp [find, setValueFirst, h, h2, hne]
      · simp [find, setValueFirst, h, h2, ih]

theorem map_key_setValueFirst (key : Key) (v : Value) :
    ∀ l : List (Node Key Value),
      (setValueFirst key v l).map Node.key = l.map Node.key := by
  intro l
  induction l with
  | nil => rfl
  | cons n rest ih =>
    by_cases h : n.key = key
    · simp [setValueFirst, h]
    · simp [setValueFirst, h, ih]

theorem insert_fst (key : Key) (v : Value) (l : List (Node Key Value)) :
    (insert key v l).1 = (find key l).isNone := by
  unfold insert
  cases find key l <;> rfl

theorem find_insert_self (key : Key) (v : Value) (l : List (Node Key Value)) :
    ∃ n : Node Key Value,
      find key (insert key v l).2 = some n ∧ n.value = v := by
  unfold insert
  cases h : find key l with
  | none => exact ⟨{ key := key, value := v }, by simp [find], rfl⟩
  | some n =>
    refine ⟨{ n with value := v }, ?_, rfl⟩
    simp [find_setValueFirst_self, h]

theorem find_insert_ne {key' key : Key} (hne : key' ≠ key) (v : Value)
    (l : List (Node Key Value)) :
    find key' (insert key v l).2 = find key' l := by
  unfold insert
  cases h : find key l with
  | none =>
    have : ¬ key = key' := fun hx => hne hx.symm
    simp [find, this]
  | some n => simp [find_setValueFirst_ne hne]

theorem erase_of_find_none (key : Key) :
    ∀ l : List (Node Key Value), find key l = none → erase key l = (false, l) := by
  intro l
  induction l with
  | nil => intro _; rfl
  | cons n rest ih =>
    intro h
    by_cases hk : n.key = key
    · simp [find, hk] at h
    · simp [find, hk] at h
      simp [erase, hk, ih h]

theorem erase_fst (key : Key) :
    ∀ l : List (Node Key Value), (erase key l).1 = (find key l).isSome := by
  intro l
  induction l with
  | nil => rfl
  | cons n rest ih =>
    by_cases hk : n.key = key
    · simp [erase, find, hk]
    · simp [erase, find, hk, ih]

theorem erase_sublist (key : Key) :
    ∀ l : List (Node Key Value), (erase key l).2.Sublist l := by
  intro l
  induction l with
  | nil => exact List.Sublist.refl []
  | cons n rest ih =>
    by_cases hk : n.key = key
    · simpa [erase, hk] using List.sublist_cons_self n rest
    · simpa [erase, hk] using List.Sublist.cons₂ n ih

theorem length_erase_of_found (key : Key) :
    ∀ l : List (Node Key Value),
      (find key l).isSome → (erase key l).2.length + 1 = l.length := by
  intro l
  induction l with
  | nil => intro h; simp [find] at h
  | cons n rest ih =>
    intro h
    by_cases hk : n.key = key
    · simp [erase, hk]
    · simp only [find, if_neg hk] at h
      have hih := ih h
      simp only [erase, if_neg hk, List.length_cons]
      omega

theorem find_erase_self (key : Key) :
    ∀ l : List (Node Key Value), (l.map Node.key).Nodup →
      find key (erase key l).2 = none := by
  intro l
  induction l with
  | nil => intro _; rfl
  | cons n rest ih =>
    intro hnd
    by_cases hk : n.key = key
    · simp only [erase, hk, if_pos rfl]
      rw [find_eq_none_iff]
      intro hmem
      exact (List.nodup_cons.mp (by simpa using hnd)).1 (hk ▸ hmem)
    · simp only [erase, hk, if_neg hk]
      simp [find, hk, ih (List.nodup_cons.mp (by simpa using hnd)).2]

theorem find_erase_ne {key' key : Key} (hne : key' ≠ key) :
    ∀ l : List (Node Key Value),
      find key' (erase key l).2 = find key' l := by
  intro l
  induction l with
  | nil => rfl
  | cons n rest ih =>
    have hkk : ¬ key = key' := fun hx => hne hx.symm
    by_cases hk : n.key = key
    · have h' : ¬ n.key = key' := fun hx => hne (hx ▸ hk)
      simp [erase, find, hk, h', hkk]
    · by_cases h2 : n.key = key'
      · simp [erase, find, hk, h2, hne]
      · simp [erase, find, hk, h2, ih]

theorem nodup_insert (key : Key) (v : Value) (l : List (Node Key Value))
    (hnd : (l.map Node.key).Nodup) :
    ((insert key v l).2.map Node.key).Nodup := by
  unfold insert
  cases h : find key l with
  | none =>
    simp only [List.map_cons]
    exact List.nodup_cons.mpr ⟨(find_eq_none_iff key l).mp h, hnd⟩
  | some n => simpa [map_key_setValueFirst] using hnd

theorem nodup_erase (key : Key) (l : List (Node Key Value))
    (hnd : (l.map Node.key).Nodup) :
    ((erase key l).2.map Node.key).Nodup :=
  hnd.sublist ((erase_sublist key l).map Node.key)

end NodeList

theorem getD_oob {α : Type} (d : α) :
    ∀ (l : List α) (i : Nat), l.length ≤ i → l.getD i d = d := by
  intro l
  induction l with
  | nil => intro i _; rfl
  | cons a t ih =>
    intro i h
    cases i with
    | zero => simp at h
    | succ j => simpa using ih j (by simpa using h)

/-! ### Container-level lemmas -/

namespace ConcurrentHashmap

variable {Key Value : Type} [DecidableEq Key]

theorem construct_ok (capacity concurrencyLevel : Nat) (hasher : Key → Nat)
    (m : ConcurrentHashmap Key Value)
    (h : construct capacity concurrencyLevel hasher = .ok m) :
    0 < capacity ∧ 0 < concurrencyLevel ∧
      m = { mCapacity := capacity
            mMutexCount := min concurrencyLevel capacity
            mIndicesPerMutex :=
              getIndicesPerMutex capacity (min concurrencyLevel capacity)
            mHasher := hasher
            mSize := 0
            mTable := List.replicate capacity [] } := by
  unfold construct getMutexCount at h
  by_cases h1 : capacity = 0
  · simp [h1] at h
  · by_cases h2 : concurrencyLevel = 0
    · simp [h1, h2] at h
    · simp only [if_neg h1, if_neg h2] at h
      refine ⟨Nat.pos_of_ne_zero h1, Nat.pos_of_ne_zero h2, ?_⟩
      cases h
      rfl

theorem getIndex_insert (m : ConcurrentHashmap Key Value) (k k' : Key) (v : Value) :
    (m.insert k v).getIndex k' = m.getIndex k' := rfl

theorem getIndex_erase (m : ConcurrentHashmap Key Value) (k k' : Key) :
    (m.erase k).getIndex k' = m.getIndex k' := rfl

theorem mTable_length_insert (m : ConcurrentHashmap Key Value) (k : Key) (v : Value) :
    (m.insert k v).mTable.length = m.mTable.length := by
  simp [insert]

theorem mTable_length_erase (m : ConcurrentHashmap Key Value) (k : Key) :
    (m.erase k).mTable.length = m.mTable.length := by
  simp [erase]

theorem TableWF_insert (m : ConcurrentHashmap Key Value) (k : Key) (v : Value)
    (hwf : m.TableWF) : (m.insert k v).TableWF :=
  ⟨(mTable_length_insert m k v).trans hwf.1, hwf.2⟩

theorem TableWF_erase (m : ConcurrentHashmap Key Value) (k : Key)
    (hwf : m.TableWF) : (m.erase k).TableWF :=
  ⟨(mTable_length_erase m k).trans hwf.1, hwf.2⟩

theorem getIndex_lt (m : ConcurrentHashmap Key Value) (k : Key)
    (hwf : m.TableWF) : m.getIndex k < m.mTable.length := by
  rw [hwf.1]
  exact Nat.mod_lt _ hwf.2

theorem find_true_index_lt (m : ConcurrentHashmap Key Value) (k : Key)
    (h : m.find k = true) : m.getIndex k < m.mTable.length := by
  by_contra hge
  rw [find, getD_oob _ _ _ (Nat.le_of_not_lt hge)] at h
  simp [NodeList.find] at h

theorem chain_insert_self (m : ConcurrentHashmap Key Value) (k : Key) (v : Value)
    (h : m.getIndex k < m.mTable.length) :
    (m.insert k v).mTable.getD (m.getIndex k) [] =
      (NodeList.insert k v (m.mTable.getD (m.getIndex k) [])).2 := by
  simp only [insert]
  exact getD_set_self _ _ _ _ h

theorem chain_insert_ne (m : ConcurrentHashmap Key Value) (k : Key) (v : Value)
    (j : Nat) (h : j ≠ m.getIndex k) :
    (m.insert k v).mTable.getD j [] = m.mTable.getD j [] := by
  simp only [insert]
  exact getD_set_ne _ _ _ _ _ (fun hx => h hx.symm)

theorem mTable_insert_oob (m : ConcurrentHashmap Key Value) (k : Key) (v : Value)
    (h : m.mTable.length ≤ m.getIndex k) : (m.insert k v).mTable = m.mTable := by
  simp only [insert]
  exact List.set_eq_of_length_le h

theorem chain_erase_self (m : ConcurrentHashmap Key Value) (k : Key)
    (h : m.getIndex k < m.mTable.length) :
    (m.erase k).mTable.getD (m.getIndex k) [] =
      (NodeList.erase k (m.mTable.getD (m.getIndex k) [])).2 := by
  simp only [erase]
  exact getD_set_self _ _ _ _ h

theorem chain_erase_ne (m : ConcurrentHashmap Key Value) (k : Key)
    (j : Nat) (h : j ≠ m.getIndex k) :
    (m.erase k).mTable.getD j [] = m.mTable.getD j [] := by
  simp only [erase]
  exact getD_set_ne _ _ _ _ _ (fun hx => h hx.symm)

theorem mTable_erase_oob (m : ConcurrentHashmap Key Value) (k : Key)
    (h : m.mTable.length ≤ m.getIndex k) : (m.erase k).mTable = m.mTable := by
  simp only [erase]
  exact List.set_eq_of_length_le h

theorem ite_isNone_isSome {α : Type} (o : Option α) (a b : Nat) :
    (if o.isNone = true then a else b) = if o.isSome = true then b else a := by
  cases o <;> rfl

theorem insert_mSize (m : ConcurrentHashmap Key Value) (k : Key) (v : Value) :
    (m.insert k v).mSize = if m.find k then m.mSize else m.mSize + 1 := by
  simp only [insert, find, NodeList.insert_fst]
  exact ite_isNone_isSome _ _ _

theorem erase_mSize (m : ConcurrentHashmap Key Value) (k : Key) :
    (m.erase k).mSize = if m.find k then m.mSize - 1 else m.mSize := by
  simp only [erase, find, NodeList.erase_fst]

theorem getCopy_insert_self (m : ConcurrentHashmap Key Value) (k : Key) (v : Value)
    (hwf : m.TableWF) : (m.insert k v).getCopy k = .ok v := by
  have hidx : m.getIndex k < m.mTable.length := getIndex_lt m k hwf
  obtain ⟨n, hfind, hval⟩ :=
    NodeList.find_insert_self k v (m.mTable.getD (m.getIndex k) [])
  have hgi : (m.insert k v).getIndex k = m.getIndex k := rfl
  rw [getCopy, hgi, chain_insert_self m k v hidx, hfind]
  simp [hval]

theorem map_find_insert_self (m : ConcurrentHashmap Key Value) (k : Key) (v : Value)
    (hwf : m.TableWF) : (m.insert k v).find k = true := by
  have hidx : m.getIndex k < m.mTable.length := getIndex_lt m k hwf
  obtain ⟨n, hfind, _⟩ :=
    NodeList.find_insert_self k v (m.mTable.getD (m.getIndex k) [])
  have hgi : (m.insert k v).getIndex k = m.getIndex k := rfl
  rw [find, hgi, chain_insert_self m k v hidx, hfind]
  rfl

theorem chainFind_insert_ne (m : ConcurrentHashmap Key Value) (k : Key) (v : Value)
    (k' : Key) (hne : k' ≠ k) :
    NodeList.find k' ((m.insert k v).mTable.getD (m.getIndex k') []) =
      NodeList.find k' (m.mTable.getD (m.getIndex k') []) := by
  by_cases hj : m.getIndex k' = m.getIndex k
  · rw [hj]
    by_cases hr : m.getIndex k < m.mTable.length
    · rw [chain_insert_self m k v hr]
      exact NodeList.find_insert_ne hne v _
    · rw [mTable_insert_oob m k v (Nat.le_of_not_lt hr)]
  · rw [chain_insert_ne m k v _ hj]

theorem map_find_insert_ne (m : ConcurrentHashmap Key Value) (k : Key) (v : Value)
    (k' : Key) (hne : k' ≠ k) : (m.insert k v).find k' = m.find k' := by
  have hgi : (m.insert k v).getIndex k' = m.getIndex k' := rfl
  rw [find, find, hgi, chainFind_insert_ne m k v k' hne]

theorem erase_of_find_false (m : ConcurrentHashmap Key Value) (k : Key)
    (h : m.find k = false) : m.erase k = m := by
  have hn : NodeList.find k (m.mTable.getD (m.getIndex k) []) = none := by
    rw [find] at h
    cases hx : NodeList.find k (m.mTable.getD (m.getIndex k) []) with
    | none => rfl
    | some n => rw [hx] at h; simp at h
  simp only [erase, NodeList.erase_of_find_none k _ hn]
  rw [set_getD_self]
  rfl

theorem chainFind_erase_ne (m : ConcurrentHashmap Key Value) (k k' : Key)
    (hne : k' ≠ k) :
    NodeList.find k' ((m.erase k).mTable.getD (m.getIndex k') []) =
      NodeList.find k' (m.mTable.getD (m.getIndex k') []) := by
  by_cases hj : m.getIndex k' = m.getIndex k
  · rw [hj]
    by_cases hr : m.getIndex k < m.mTable.length
    · rw [chain_erase_self m k hr]
      exact NodeList.find_erase_ne hne _
    · rw [mTable_erase_oob m k (Nat.le_of_not_lt hr)]
  · rw [chain_erase_ne m k _ hj]

theorem map_find_erase_ne (m : ConcurrentHashmap Key Value) (k k' : Key)
    (hne : k' ≠ k) : (m.erase k).find k' = m.find k' := by
  have hgi : (m.erase k).getIndex k' = m.getIndex k' := rfl
  rw [find, find, hgi, chainFind_erase_ne m k k' hne]

theorem getCopy_erase_ne (m : ConcurrentHashmap Key Value) (k k' : Key)
    (hne : k' ≠ k) : (m.erase k).getCopy k' = m.getCopy k' := by
  have hgi : (m.erase k).getIndex k' = m.getIndex k' := rfl
  rw [getCopy, getCopy, hgi, chainFind_erase_ne m k k' hne]

theorem map_find_erase_self (m : ConcurrentHashmap Key Value) (k : Key)
    (hKeys : m.KeysInv) : (m.erase k).find k = false := by
  by_cases hf : m.find k = true
  · have hidx : m.getIndex k < m.mTable.length := find_true_index_lt m k hf
    have hmem : m.mTable.getD (m.getIndex k) [] ∈ m.mTable := getD_mem _ _ _ hidx
    have hgi : (m.erase k).getIndex k = m.getIndex k := rfl
    rw [find, hgi, chain_erase_self m k hidx,
      NodeList.find_erase_self k _ (hKeys _ hmem)]
    rfl
  · rw [erase_of_find_false m k (by simpa using hf)]
    simpa using hf

theorem erase_mSize_of_found (m : ConcurrentHashmap Key Value) (k : Key)
    (hsz : m.SizeOk) (h : m.find k = true) : (m.erase k).mSize + 1 = m.mSize := by
  have hidx : m.getIndex k < m.mTable.length := find_true_index_lt m k h
  have hmem : m.mTable.getD (m.getIndex k) [] ∈ m.mTable := getD_mem _ _ _ hidx
  have hlen : 1 ≤ (m.mTable.getD (m.getIndex k) []).length := by
    rw [find] at h
    cases hx : NodeList.find k (m.mTable.getD (m.getIndex k) []) with
    | none => rw [hx] at h; simp at h
    | some n =>
      cases hl : m.mTable.getD (m.getIndex k) [] with
      | nil => rw [hl] at hx; simp [NodeList.find] at hx
      | cons a t => simp [hl]
  have hmem2 : (m.mTable.getD (m.getIndex k) []).length ∈ m.mTable.map List.length :=
    List.mem_map_of_mem List.length hmem
  have hsum : (m.mTable.getD (m.getIndex k) []).length ≤ (m.mTable.map List.length).sum :=
    List.single_le_sum (fun x _ => Nat.zero_le x) _ hmem2
  have hpos : 0 < m.mSize := by rw [hsz]; omega
  rw [erase_mSize, if_pos h]
  omega

theorem KeysInv_construct (capacity concurrencyLevel : Nat) (hasher : Key → Nat)
    (m : ConcurrentHashmap Key Value)
    (h : construct capacity concurrencyLevel hasher = .ok m) : m.KeysInv := by
  obtain ⟨_, _, hm⟩ := construct_ok capacity concurrencyLevel hasher m h
  subst hm
  intro chain hchain
  simp only [List.eq_of_mem_replicate hchain]
  exact List.nodup_nil

theorem KeysInv_insert (m : ConcurrentHashmap Key Value) (k : Key) (v : Value)
    (hKeys : m.KeysInv) : (m.insert k v).KeysInv := by
  intro chain hchain
  simp only [insert] at hchain
  rcases List.mem_or_eq_of_mem_set hchain with hmem | heq
  · exact hKeys chain hmem
  · subst heq
    by_cases hr : m.getIndex k < m.mTable.length
    · exact NodeList.nodup_insert k v _ (hKeys _ (getD_mem _ _ _ hr))
    · rw [getD_oob _ _ _ (Nat.le_of_not_lt hr)]
      exact NodeList.nodup_insert k v [] List.nodup_nil

theorem KeysInv_erase (m : ConcurrentHashmap Key Value) (k : Key)
    (hKeys : m.KeysInv) : (m.erase k).KeysInv := by
  intro chain hchain
  simp only [erase] at hchain
  rcases List.mem_or_eq_of_mem_set hchain with hmem | heq
  · exact hKeys chain hmem
  · subst heq
    by_cases hr : m.getIndex k < m.mTable.length
    · exact NodeList.nodup_erase k _ (hKeys _ (getD_mem _ _ _ hr))
    · rw [getD_oob _ _ _ (Nat.le_of_not_lt hr)]
      exact NodeList.nodup_erase k [] List.nodup_nil

theorem find_construct (capacity concurrencyLevel : Nat) (hasher : Key → Nat)
    (m : ConcurrentHashmap Key Value)
    (h : construct capacity concurrencyLevel hasher = .ok m) (k : Key) :
    m.find k = false := by
  obtain ⟨_, _, hm⟩ := construct_ok capacity concurrencyLevel hasher m h
  subst hm
  rw [find]
  simp only [getD_replicate]
  rfl

theorem TableWF_construct (capacity concurrencyLevel : Nat) (hasher : Key → Nat)
    (m : ConcurrentHashmap Key Value)
    (h : construct capacity concurrencyLevel hasher = .ok m) : m.TableWF := by
  obtain ⟨hc, _, hm⟩ := construct_ok capacity concurrencyLevel hasher m h
  subst hm
  exact ⟨List.length_replicate capacity [], hc⟩

theorem getIndicesPerMutex_eq_ceil (capacity mutexCount : Nat)
    (hmc : 0 < mutexCount) :
    getIndicesPerMutex capacity mutexCount =
      (capacity + mutexCount - 1) / mutexCount := by
  unfold getIndicesPerMutex
  by_cases h : capacity % mutexCount = 0
  · rw [if_neg (by simpa using h)]
    rcases Nat.eq_zero_or_pos capacity with hc | hc
    · subst hc
      rw [Nat.zero_div, Nat.zero_add, Nat.div_eq_of_lt (by omega)]
    · have hd : mutexCount ∣ capacity := Nat.dvd_of_mod_eq_zero h
      rw [div_eq_pred_div_succ_of_dvd hc hd, add_sub_one_div hc hmc]
  · rw [if_pos (by simpa using h)]
    have hc : 0 < capacity := by
      rcases Nat.eq_zero_or_pos capacity with h0 | h0
      · subst h0; simp at h
      · exact h0
    have hnd : ¬ mutexCount ∣ capacity := fun hd => h (Nat.dvd_iff_mod_eq_zero.mp hd)
    rw [Nat.add_div_right _ hmc, div_eq_pred_div_of_not_dvd hmc hnd,
      add_sub_one_div hc hmc]

theorem mutexIndex_lt (i capacity mutexCount : Nat) (hi : i < capacity)
    (hmc : 0 < mutexCount) :
    i / getIndicesPerMutex capacity mutexCount < mutexCount := by
  have hc : 0 < capacity := Nat.lt_of_le_of_lt (Nat.zero_le i) hi
  rw [getIndicesPerMutex_eq_ceil capacity mutexCount hmc]
  have hp : 0 < (capacity + mutexCount - 1) / mutexCount := ceil_pos capacity mutexCount hc hmc
  rw [Nat.div_lt_iff_lt_mul hp]
  have h1 := ceil_mul_ge capacity mutexCount hmc
  have h2 : mutexCount * ((capacity + mutexCount - 1) / mutexCount) =
      ((capacity + mutexCount - 1) / mutexCount) * mutexCount := Nat.mul_comm _ _
  omega

theorem find_false_none (m : ConcurrentHashmap Key Value) (k : Key)
    (h : m.find k = false) :
    NodeList.find k (m.mTable.getD (m.getIndex k) []) = none := by
  rw [find] at h
  cases hx : NodeList.find k (m.mTable.getD (m.getIndex k) []) with
  | none => rfl
  | some n => rw [hx] at h; simp at h

theorem foldl_insert_spec :
    ∀ (ops : List (Key × Value)) (m : ConcurrentHashmap Key Value),
      m.TableWF → (∀ p ∈ ops, m.find p.1 = false) →
      (ops.map Prod.fst).Nodup →
      ((ops.foldl (fun acc p => acc.insert p.1 p.2) m).mSize =
          m.mSize + ops.length ∧
        (∀ p ∈ ops,
          (ops.foldl (fun acc p => acc.insert p.1 p.2) m).find p.1 = true) ∧
        (∀ key, (∀ p ∈ ops, p.1 ≠ key) →
          (ops.foldl (fun acc p => acc.insert p.1 p.2) m).find key =
            m.find key)) := by
  intro ops
  induction ops with
  | nil =>
    intro m _ _ _
    exact ⟨rfl, fun p hp => absurd hp (List.not_mem_nil p), fun key _ => rfl⟩
  | cons p rest ih =>
    intro m hwf hfresh hnd
    have hnd1 : p.1 ∉ rest.map Prod.fst := (List.nodup_cons.mp hnd).1
    have hnd2 : (rest.map Prod.fst).Nodup := (List.nodup_cons.mp hnd).2
    have hwf2 : (m.insert p.1 p.2).TableWF := TableWF_insert m p.1 p.2 hwf
    have hfresh1 : m.find p.1 = false := hfresh p (List.mem_cons_self p rest)
    have hfresh2 : ∀ q ∈ rest, (m.insert p.1 p.2).find q.1 = false := by
      intro q hq
      have hqne : q.1 ≠ p.1 := fun hx =>
        hnd1 (hx ▸ List.mem_map_of_mem Prod.fst hq)
      rw [map_find_insert_ne m p.1 p.2 q.1 hqne]
      exact hfresh q (List.mem_cons_of_mem p hq)
    obtain ⟨ihsize, ihmem, ihframe⟩ := ih (m.insert p.1 p.2) hwf2 hfresh2 hnd2
    have hsize1 : (m.insert p.1 p.2).mSize = m.mSize + 1 := by
      rw [insert_mSize, hfresh1]
      rfl
    refine ⟨?_, ?_, ?_⟩
    · simp only [List.foldl_cons]
      rw [ihsize, hsize1, List.length_cons]
      omega
    · intro q hq
      rcases List.mem_cons.mp hq with hq1 | hq2
      · subst hq1
        simp only [List.foldl_cons]
        rw [ihframe q.1 (fun r hr => fun hx =>
          hnd1 (hx ▸ List.mem_map_of_mem Prod.fst hr))]
        exact map_find_insert_self m q.1 q.2 hwf
      · simp only [List.foldl_cons]
        exact ihmem q hq2
    · intro key hkey
      simp only [List.foldl_cons]
      rw [ihframe key (fun r hr => hkey r (List.mem_cons_of_mem p hr))]
      exact map_find_insert_ne m p.1 p.2 key
        (fun hx => hkey p (List.mem_cons_self p rest) hx.symm)

end ConcurrentHashmap

theorem sum_map_length_const {α : Type} :
    ∀ (ll : List (List α)) (M : Nat), (∀ t ∈ ll, t.length = M) →
      (ll.map List.length).sum = ll.length * M := by
  intro ll
  induction ll with
  | nil => intro M _; simp
  | cons t rest ih =>
    intro M h
    have ht : t.length = M := h t (List.mem_cons_self t rest)
    have hr := ih M (fun u hu => h u (List.mem_cons_of_mem t hu))
    simp only [List.map_cons, List.sum_cons, List.length_cons, ht, hr]
    ring

/-! ### Concrete containers used by the witnesses -/

def idHasher : Nat → Nat := fun n => n

def constHasher : Nat → Nat := fun _ => 0

/-- The container produced by `construct 4 16 idHasher`. -/
def exampleEmpty : ConcurrentHashmap Nat Nat :=
  { mCapacity := 4, mMutexCount := 4, mIndicesPerMutex := 1,
    mHasher := idHasher, mSize := 0, mTable := List.replicate 4 [] }

def exampleMap1 : ConcurrentHashmap Nat Nat := exampleEmpty.insert 1 1

/-- The container produced by `construct 4 16 constHasher`: all keys
collide into bucket 0. -/
def collEmpty : ConcurrentHashmap Nat Nat :=
  { mCapacity := 4, mMutexCount := 4, mIndicesPerMutex := 1,
    mHasher := constHasher, mSize := 0, mTable := List.replicate 4 [] }

def exampleColl : ConcurrentHashmap Nat Nat :=
  ((collEmpty.insert 1 10).insert 2 20).insert 3 30

/-- The container produced by `construct 5 2 idHasher` (non-divisible
stripe: `indicesPerLock = (5 + 2) / 2 = 3`). -/
def exampleMap5 : ConcurrentHashmap Nat Nat :=
  { mCapacity := 5, mMutexCount := 2, mIndicesPerMutex := 3,
    mHasher := idHasher, mSize := 0, mTable := List.replicate 5 [] }

def threadsEx : List (List (Nat × Nat)) := [[(0, 10), (1, 11)], [(2, 12), (3, 13)]]

def schedEx : List (Nat × Nat) := [(0, 10), (2, 12), (1, 11), (3, 13)]

/-! ### Claim theorems -/

/-- C1: `insert` has upsert semantics: on a well-formed container state,
if the key is absent `size()` increases by exactly 1, if present it is
unchanged, and in both cases a subsequent `getCopy` of the key returns
the newly inserted value. -/
theorem insert_upsert_semantics {Key Value : Type} [DecidableEq Key]
    (m : ConcurrentHashmap Key Value) (k : Key) (v : Value)
    (hwf : m.TableWF) :
    (m.insert k v).size = (if m.find k = true then m.size else m.size + 1) ∧
    (m.insert k v).getCopy k = Except.ok v :=
  ⟨ConcurrentHashmap.insert_mSize m k v,
   ConcurrentHashmap.getCopy_insert_self m k v hwf⟩

theorem insert_upsert_semantics_witness :
    (exampleMap1.insert 1 10).size = 1 ∧
    (exampleMap1.insert 1 10).getCopy 1 = Except.ok 10 := by
  have h := insert_upsert_semantics exampleMap1 1 10 (by decide)
  refine ⟨?_, h.2⟩
  rw [h.1]
  decide

/-- C2: for an absent key, `find` is false and both `getCopy` and `get`
fail with `KeyNotFound` (the queries are pure, so no state changes and,
in the embedding, no lock is part of the error result); on a freshly
constructed container, `insert k v` then `getCopy k` yields `v` and
`size()` is 1. -/
theorem absence_and_roundtrip_contract {Key Value : Type} [DecidableEq Key] :
    (∀ (m : ConcurrentHashmap Key Value) (k : Key), m.find k = false →
        m.getCopy k = Except.error ConcurrentHashmapException.KeyNotFound ∧
        m.get k = Except.error ConcurrentHashmapException.KeyNotFound) ∧
    (∀ (capacity concurrencyLevel : Nat) (hasher : Key → Nat)
        (m : ConcurrentHashmap Key Value) (k : Key) (v : Value),
        ConcurrentHashmap.construct capacity concurrencyLevel hasher =
          Except.ok m →
        (m.insert k v).getCopy k = Except.ok v ∧ (m.insert k v).size = 1) := by
  constructor
  · intro m k h
    have hn := ConcurrentHashmap.find_false_none m k h
    constructor
    · rw [ConcurrentHashmap.getCopy, hn]
    · rw [ConcurrentHashmap.get, hn]
  · intro capacity concurrencyLevel hasher m k v h
    have hwf := ConcurrentHashmap.TableWF_construct _ _ _ m h
    have hf := ConcurrentHashmap.find_construct _ _ _ m h k
    have hs0 : m.mSize = 0 := by
      obtain ⟨_, _, hm⟩ := ConcurrentHashmap.construct_ok _ _ _ m h
      rw [hm]
    refine ⟨ConcurrentHashmap.getCopy_insert_self m k v hwf, ?_⟩
    show (m.insert k v).mSize = 1
    rw [ConcurrentHashmap.insert_mSize, hf, hs0]
    rfl

theorem absence_and_roundtrip_contract_witness :
    (exampleMap1.find 2 = false ∧
     exampleMap1.getCopy 2 = Except.error ConcurrentHashmapException.KeyNotFound ∧
     exampleMap1.get 2 = Except.error ConcurrentHashmapException.KeyNotFound) ∧
    ((exampleEmpty.insert 5 7).getCopy 5 = Except.ok 7 ∧
     (exampleEmpty.insert 5 7).size = 1) := by
  have h1 := absence_and_roundtrip_contract.1 exampleMap1 2 (by decide)
  have h2 := absence_and_roundtrip_contract.2 4 16 idHasher exampleEmpty 5 7 rfl
  exact ⟨⟨by decide, h1.1, h1.2⟩, h2⟩

/-- C3: on a well-formed state, `erase k` with `k` present removes the
entry (`find` becomes false) and decreases `size()` by exactly 1; with
`k` absent it is the identity on the whole container state (no error:
`erase` is total). -/
theorem erase_present_absent_spec {Key Value : Type} [DecidableEq Key]
    (m : ConcurrentHashmap Key Value) (k : Key) :
    (m.find k = true → m.SizeOk → m.KeysInv →
        (m.erase k).size + 1 = m.size ∧ (m.erase k).find k = false) ∧
    (m.find k = false → m.erase k = m) := by
  constructor
  · intro hf hsz hkeys
    exact ⟨ConcurrentHashmap.erase_mSize_of_found m k hsz hf,
           ConcurrentHashmap.map_find_erase_self m k hkeys⟩
  · exact ConcurrentHashmap.erase_of_find_false m k

theorem erase_present_absent_spec_witness :
    ((exampleMap1.erase 1).size + 1 = exampleMap1.size ∧
     (exampleMap1.erase 1).find 1 = false) ∧
    exampleMap1.erase 3 = exampleMap1 :=
  ⟨(erase_present_absent_spec exampleMap1 1).1 (by decide) (by decide)
     (by decide),
   (erase_present_absent_spec exampleMap1 3).2 (by decide)⟩

/-- C4: construction with capacity 0 fails with `InvalidCapacity`;
construction with positive capacity and concurrency level 0 fails with
`InvalidConcurrencyLevel` (in either failure case only an error — no
container — is produced); construction with capacity 1 and concurrency
level 1 succeeds with `lockCount = 1`. -/
theorem construction_validation {Key Value : Type} :
    (∀ (concurrencyLevel : Nat) (hasher : Key → Nat),
        (ConcurrentHashmap.construct 0 concurrencyLevel hasher :
            Except ConcurrentHashmapException (ConcurrentHashmap Key Value)) =
          Except.error ConcurrentHashmapException.InvalidCapacity) ∧
    (∀ (capacity : Nat) (hasher : Key → Nat), 0 < capacity →
        (ConcurrentHashmap.construct capacity 0 hasher :
            Except ConcurrentHashmapException (ConcurrentHashmap Key Value)) =
          Except.error ConcurrentHashmapException.InvalidConcurrencyLevel) ∧
    (∀ hasher : Key → Nat,
        ∃ m : ConcurrentHashmap Key Value,
          ConcurrentHashmap.construct 1 1 hasher = Except.ok m ∧
            m.mMutexCount = 1) := by
  refine ⟨fun concurrencyLevel hasher => rfl, ?_, fun hasher => ⟨_, rfl, rfl⟩⟩
  intro capacity hasher hcap
  unfold ConcurrentHashmap.construct ConcurrentHashmap.getMutexCount
  rw [if_neg (Nat.pos_iff_ne_zero.mp hcap)]
  rfl

theorem construction_validation_witness :
    (ConcurrentHashmap.construct 0 7 idHasher :
        Except ConcurrentHashmapException (ConcurrentHashmap Nat Nat)) =
      Except.error ConcurrentHashmapException.InvalidCapacity ∧
    (ConcurrentHashmap.construct 3 0 idHasher :
        Except ConcurrentHashmapException (ConcurrentHashmap Nat Nat)) =
      Except.error ConcurrentHashmapException.InvalidConcurrencyLevel ∧
    ∃ m : ConcurrentHashmap Nat Nat,
      ConcurrentHashmap.construct 1 1 idHasher = Except.ok m ∧
        m.mMutexCount = 1 :=
  ⟨construction_validation.1 7 idHasher,
   construction_validation.2.1 3 idHasher (by decide),
   construction_validation.2.2 idHasher⟩

/-- C5: the chain invariant — at most one entry per distinct key in any
chain — is established by construction and preserved by `insert` and by
`erase` (the queries do not change state). -/
theorem chain_key_uniqueness_invariant {Key Value : Type} [DecidableEq Key] :
    (∀ (capacity concurrencyLevel : Nat) (hasher : Key → Nat)
        (m : ConcurrentHashmap Key Value),
        ConcurrentHashmap.construct capacity concurrencyLevel hasher =
          Except.ok m → m.KeysInv) ∧
    (∀ (m : ConcurrentHashmap Key Value) (k : Key) (v : Value),
        m.KeysInv → (m.insert k v).KeysInv) ∧
    (∀ (m : ConcurrentHashmap Key Value) (k : Key),
        m.KeysInv → (m.erase k).KeysInv) :=
  ⟨ConcurrentHashmap.KeysInv_construct,
   ConcurrentHashmap.KeysInv_insert,
   ConcurrentHashmap.KeysInv_erase⟩

theorem chain_key_uniqueness_invariant_witness :
    exampleEmpty.KeysInv ∧ (exampleMap1.insert 2 5).KeysInv ∧
    (exampleMap1.erase 1).KeysInv :=
  ⟨chain_key_uniqueness_invariant.1 4 16 idHasher exampleEmpty rfl,
   chain_key_uniqueness_invariant.2.1 exampleMap1 2 5 (by decide),
   chain_key_uniqueness_invariant.2.2 exampleMap1 1 (by decide)⟩

/-- C6: `getIndicesPerMutex(capacity, lockCount)` equals the exact
ceiling of `capacity / lockCount` (in `Nat`, the ceiling is
`(capacity + lockCount - 1) / lockCount`), for all `capacity ≥ 1` and
`1 ≤ lockCount ≤ capacity`; in particular the non-divisible branch
`(capacity + lockCount) / lockCount` computes the ceiling. -/
theorem indicesPerLock_is_ceil (capacity lockCount : Nat)
    (h1 : 1 ≤ capacity) (h2 : 1 ≤ lockCount) (h3 : lockCount ≤ capacity) :
    ConcurrentHashmap.getIndicesPerMutex capacity lockCount =
      (capacity + lockCount - 1) / lockCount :=
  ConcurrentHashmap.getIndicesPerMutex_eq_ceil capacity lockCount h2

theorem indicesPerLock_is_ceil_witness :
    ConcurrentHashmap.getIndicesPerMutex 5 2 = (5 + 2 - 1) / 2 :=
  indicesPerLock_is_ceil 5 2 (by decide) (by decide) (by decide)

/-- C7: every successfully constructed container has
`lockCount = min(concurrencyLevel, capacity)` with
`1 ≤ lockCount ≤ capacity`, and the configuration fields are immutable
under the mutating operations, so the invariant holds for the
container's whole lifetime. -/
theorem lockCount_min_and_bounds {Key Value : Type} [DecidableEq Key]
    (capacity concurrencyLevel : Nat) (hasher : Key → Nat)
    (m : ConcurrentHashmap Key Value)
    (h : ConcurrentHashmap.construct capacity concurrencyLevel hasher =
      Except.ok m) :
    m.mMutexCount = min concurrencyLevel capacity ∧
    1 ≤ m.mMutexCount ∧ m.mMutexCount ≤ m.mCapacity ∧
    (∀ (k : Key) (v : Value), (m.insert k v).mMutexCount = m.mMutexCount ∧
        (m.insert k v).mCapacity = m.mCapacity) ∧
    (∀ k : Key, (m.erase k).mMutexCount = m.mMutexCount ∧
        (m.erase k).mCapacity = m.mCapacity) := by
  obtain ⟨hc, hcl, hm⟩ := ConcurrentHashmap.construct_ok _ _ _ m h
  subst hm
  exact ⟨rfl, Nat.le_min.mpr ⟨hcl, hc⟩, Nat.min_le_right _ _,
    fun k v => ⟨rfl, rfl⟩, fun k => ⟨rfl, rfl⟩⟩

theorem lockCount_min_and_bounds_witness :
    exampleEmpty.mMutexCount = min 16 4 ∧ 1 ≤ exampleEmpty.mMutexCount ∧
    exampleEmpty.mMutexCount ≤ exampleEmpty.mCapacity ∧
    (exampleEmpty.insert 2 9).mMutexCount = exampleEmpty.mMutexCount ∧
    (exampleEmpty.erase 2).mMutexCount = exampleEmpty.mMutexCount := by
  have h := lockCount_min_and_bounds 4 16 idHasher exampleEmpty rfl
  exact ⟨h.1, h.2.1, h.2.2.1, (h.2.2.2.1 2 9).1, (h.2.2.2.2 2).1⟩

/-- C8: erase touches only the erased key: for any other key (in
particular under a constant hash function, where all keys share one
chain), `find` and `getCopy` are unchanged by the erase, while `find` of
the erased key becomes false. -/
theorem erase_frame_effect {Key Value : Type} [DecidableEq Key]
    (m : ConcurrentHashmap Key Value) (k k' : Key)
    (hne : k' ≠ k) (hkeys : m.KeysInv) :
    (m.erase k).find k' = m.find k' ∧
    (m.erase k).getCopy k' = m.getCopy k' ∧
    (m.erase k).find k = false :=
  ⟨ConcurrentHashmap.map_find_erase_ne m k k' hne,
   ConcurrentHashmap.getCopy_erase_ne m k k' hne,
   ConcurrentHashmap.map_find_erase_self m k hkeys⟩

theorem erase_frame_effect_witness :
    (exampleColl.erase 2).find 1 = exampleColl.find 1 ∧
    (exampleColl.erase 2).getCopy 1 = exampleColl.getCopy 1 ∧
    (exampleColl.erase 2).find 2 = false :=
  erase_frame_effect exampleColl 2 1 (by decide) (by decide)

/-- C9: concurrent insert completeness, modelled at lock-protected
operation granularity: `N` threads of `M` inserts each, with pairwise
distinct keys across all threads, executed in any interleaving `sched`
(any permutation of the pooled operations covers every interleaving of
the per-thread sequences), leave `size() = N * M` with every inserted
key findable. -/
theorem concurrent_insert_completeness {Key Value : Type} [DecidableEq Key]
    (capacity concurrencyLevel : Nat) (hasher : Key → Nat)
    (m0 : ConcurrentHashmap Key Value)
    (h : ConcurrentHashmap.construct capacity concurrencyLevel hasher =
      Except.ok m0)
    (threads : List (List (Key × Value))) (sched : List (Key × Value))
    (N M : Nat) (hN : threads.length = N) (hM : ∀ t ∈ threads, t.length = M)
    (hsched : sched.Perm threads.flatten)
    (hnd : (threads.flatten.map Prod.fst).Nodup) :
    (sched.foldl (fun acc p => acc.insert p.1 p.2) m0).size = N * M ∧
    ∀ p ∈ threads.flatten,
      (sched.foldl (fun acc p => acc.insert p.1 p.2) m0).find p.1 = true := by
  have hwf := ConcurrentHashmap.TableWF_construct _ _ _ m0 h
  have hs0 : m0.mSize = 0 := by
    obtain ⟨_, _, hm⟩ := ConcurrentHashmap.construct_ok _ _ _ m0 h
    rw [hm]
  have hndsched : (sched.map Prod.fst).Nodup :=
    ((hsched.map Prod.fst).nodup_iff).mpr hnd
  have hfresh : ∀ p ∈ sched, m0.find p.1 = false := fun p _ =>
    ConcurrentHashmap.find_construct _ _ _ m0 h p.1
  obtain ⟨hsize, hmem, _⟩ :=
    ConcurrentHashmap.foldl_insert_spec sched m0 hwf hfresh hndsched
  have hlen : sched.length = N * M := by
    rw [hsched.length_eq, List.length_flatten,
      sum_map_length_const threads M hM, hN]
  constructor
  · show (sched.foldl (fun acc p => acc.insert p.1 p.2) m0).mSize = N * M
    rw [hsize, hs0, hlen]
    omega
  · intro p hp
    exact hmem p (hsched.mem_iff.mpr hp)

theorem concurrent_insert_completeness_witness :
    (schedEx.foldl (fun acc p => acc.insert p.1 p.2) exampleEmpty).size =
      2 * 2 ∧
    ∀ p ∈ threadsEx.flatten,
      (schedEx.foldl (fun acc p => acc.insert p.1 p.2) exampleEmpty).find
        p.1 = true :=
  concurrent_insert_completeness 4 16 idHasher exampleEmpty rfl threadsEx
    schedEx 2 2 (by decide) (by decide) (by decide) (by decide)

/-- C10: for every successfully constructed container and every key,
the lock index `bucketIndex / indicesPerLock` computed by `getMutex` is
strictly below `lockCount`, so the mutex-array access is in bounds. -/
theorem mutex_index_in_bounds {Key Value : Type} [DecidableEq Key]
    (capacity concurrencyLevel : Nat) (hasher : Key → Nat)
    (m : ConcurrentHashmap Key Value)
    (h : ConcurrentHashmap.construct capacity concurrencyLevel hasher =
      Except.ok m) (key : Key) :
    m.getMutexIndex (m.getIndex key) < m.mMutexCount := by
  obtain ⟨hc, hcl, hm⟩ := ConcurrentHashmap.construct_ok _ _ _ m h
  subst hm
  have hmc : 0 < min concurrencyLevel capacity := Nat.le_min.mpr ⟨hcl, hc⟩
  have hi : hasher key % capacity < capacity := Nat.mod_lt _ hc
  exact ConcurrentHashmap.mutexIndex_lt _ capacity _ hi hmc

theorem mutex_index_in_bounds_witness :
    exampleMap5.getMutexIndex (exampleMap5.getIndex 4) <
      exampleMap5.mMutexCount :=
  mutex_index_in_bounds 5 2 idHasher exampleMap5 rfl 4
